import Mathlib

/-!
Verification development for the discovery decoder and node registry of
rmw_dps_cpp (src/rmw_dps_cpp/include/rmw_dps_cpp/custom_node_info.hpp).

Strings are modelled as lists of characters; std::string::find, substr and
the hand-written comma loop of process_topic_info are embedded directly.
The std::map of discovered nodes is modelled as an association list ordered
by the lexicographic order on keys, mirroring the ordered map and its
iteration order.
-/

namespace RmwDps

/-- Check whether the first list is an initial segment of the second,
mirroring the substring test done at one position of std::string::find. -/
def isPre : List Char → List Char → Bool
  | [], _ => true
  | _ :: _, [] => false
  | a :: as, b :: bs => a == b && isPre as bs

/-- Scan of std::string::find: walk the suffixes of the haystack, reporting
the absolute index (the index of the first suffix is the accumulator) of the
first suffix that the needle starts. -/
def strFindAux (needle : List Char) : List Char → Nat → Option Nat
  | [], i => if isPre needle [] then some i else none
  | c :: rest, i =>
    if isPre needle (c :: rest) then some i else strFindAux needle rest (i + 1)

/-- std::string::find(needle): index of the first occurrence, none for npos. -/
def strFind (hay needle : List Char) : Option Nat :=
  strFindAux needle hay 0

/-- std::string::find(needle, pos): first occurrence at index at least pos;
for pos beyond the string length the C++ call yields npos. -/
def strFindFrom (hay needle : List Char) (pos : Nat) : Option Nat :=
  if pos ≤ hay.length then strFindAux needle (hay.drop pos) pos else none

/-- The type-list marker literal of process_topic_info. -/
def typesMarker : List Char := "&types=".data

/-- NodeListener::Topic: one advertised or subscribed interface point. -/
structure Topic where
  topic : List Char
  types : List (List Char)
deriving DecidableEq

/-- The while loop of process_topic_info: starting at pos, repeatedly find
the next comma at or after pos, push the segment before it, and continue
after the comma; when no comma remains push the rest and stop.  The loop
advances pos past a found comma each iteration, so the string length bounds
the number of iterations; fuel makes that bound explicit. -/
def typesLoopFuel : Nat → List Char → Nat → List (List Char)
  | 0, _, _ => []
  | fuel + 1, s, pos =>
    match strFindFrom s [','] pos with
    | some e => (s.drop pos).take (e - pos) :: typesLoopFuel fuel s (e + 1)
    | none => [s.drop pos]

/-- The while loop of process_topic_info at its entry, with sufficient fuel
(each iteration consumes at least one character position). -/
def typesLoop (s : List Char) (pos : Nat) : List (List Char) :=
  typesLoopFuel (s.length + 1 - pos) s pos

/-- NodeListener::process_topic_info: look for the role marker anywhere in
the string; on a hit, the topic name runs from after the marker up to the
first occurrence of the type-list marker (to the end of the string when the
marker is missing, and likewise — via size_t wrap-around of end_pos - pos
clamped by substr — when the type-list marker occurs before the end of the
role marker), and the comma loop then runs from after the type-list marker
when present, otherwise from the position right after the role marker. -/
def process_topic_info (topic_str : List Char) (marker : List Char) : Option Topic :=
  match strFind topic_str marker with
  | none => none
  | some pos0 =>
    let pos := pos0 + marker.length
    match strFind topic_str typesMarker with
    | some end_pos =>
      some { topic := (topic_str.drop pos).take
                        (if pos ≤ end_pos then end_pos - pos else topic_str.length),
             types := typesLoop topic_str (end_pos + typesMarker.length) }
    | none =>
      some { topic := topic_str.drop pos,
             types := typesLoop topic_str pos }

/-- Canonical comma split of a character list: every segment, including
empty ones, in encounter order.  Used as the specification-side description
of the comma loop. -/
def commaSplit : List Char → List (List Char)
  | [] => [[]]
  | c :: rest =>
    if c = ',' then [] :: commaSplit rest
    else (c :: (commaSplit rest).headI) :: (commaSplit rest).tail

/-- Join segments with commas: the inverse direction of the comma split. -/
def joinCommas : List (List Char) → List Char
  | [] => []
  | [a] => a
  | a :: b :: rest => a ++ ',' :: joinCommas (b :: rest)

/-- Modelled from the spec: the five fixed prefix markers live in
rmw_dps_cpp/namespace_prefix.hpp, which is not among the sources here; the
concrete values follow the concrete scenarios of the specification. -/
def uuidMarker : List Char := "_did_=".data

/-- Modelled from the spec: namespace marker (see uuidMarker). -/
def namespaceMarker : List Char := "_nsp_=".data

/-- Modelled from the spec: name marker (see uuidMarker). -/
def nameMarker : List Char := "_name_=".data

/-- Modelled from the spec: publisher-topic marker (see uuidMarker). -/
def pubMarker : List Char := "_pub_=".data

/-- Modelled from the spec: subscriber-topic marker (see uuidMarker). -/
def subMarker : List Char := "_sub_=".data

/-- NodeListener::Node: a remote node's current known shape; the default
constructor sets the namespace to "/" and leaves the rest empty. -/
structure Node where
  name : List Char
  namespace_ : List Char
  publishers : List Topic
  subscribers : List Topic
deriving DecidableEq

/-- The default-constructed Node. -/
def Node.default : Node :=
  { name := [], namespace_ := "/".data, publishers := [], subscribers := [] }

/-- The classification loop of NodeListener::onPublication: each topic
string is tested against the five markers in a fixed order, the first hit
determining its role; unmatched strings are skipped. -/
def classifyLoop : List (List Char) → List Char → Node → List Char × Node
  | [], uuid, node => (uuid, node)
  | t :: rest, uuid, node =>
    match strFind t uuidMarker with
    | some pos => classifyLoop rest (t.drop (pos + uuidMarker.length)) node
    | none =>
      match strFind t namespaceMarker with
      | some pos =>
        classifyLoop rest uuid { node with namespace_ := t.drop (pos + namespaceMarker.length) }
      | none =>
        match strFind t nameMarker with
        | some pos =>
          classifyLoop rest uuid { node with name := t.drop (pos + nameMarker.length) }
        | none =>
          match process_topic_info t pubMarker with
          | some p => classifyLoop rest uuid { node with publishers := node.publishers ++ [p] }
          | none =>
            match process_topic_info t subMarker with
            | some p => classifyLoop rest uuid { node with subscribers := node.subscribers ++ [p] }
            | none => classifyLoop rest uuid node

/-- Decode one announcement: run the classification loop from the empty
uuid and the default-constructed Node. -/
def decode (topics : List (List Char)) : List Char × Node :=
  classifyLoop topics [] Node.default

/-- Lexicographic order on character lists, mirroring operator< of
std::string, the key order of the std::map of discovered nodes. -/
def strLt : List Char → List Char → Bool
  | [], [] => false
  | [], _ :: _ => true
  | _ :: _, [] => false
  | a :: as, b :: bs => if a < b then true else if b < a then false else strLt as bs

/-- The registry table: the std::map from uuid to Node, modelled as an
association list kept ordered by strLt on the keys. -/
abbrev RegMap := List (List Char × Node)

/-- Lookup in the registry table. -/
def mapLookup (k : List Char) : RegMap → Option Node
  | [] => none
  | kv :: rest => if k = kv.1 then some kv.2 else mapLookup k rest

/-- Ordered insert-or-replace, the effect on the table of writing through
operator[] of std::map. -/
def mapInsert (k : List Char) (v : Node) : RegMap → RegMap
  | [] => [(k, v)]
  | kv :: rest =>
    if strLt k kv.1 then (k, v) :: kv :: rest
    else if k = kv.1 then (k, v) :: rest
    else kv :: mapInsert k v rest

/-- Result of one delivery of an announcement to
NodeListener::onPublication: the table afterwards, whether the graph guard
condition was triggered, and whether the error branch (trigger returned a
non-OK status) was logged. -/
structure StepResult where
  state : RegMap
  triggered : Bool
  loggedError : Bool
deriving DecidableEq

/-- NodeListener::onPublication under the lock: decode the topics; when a
uuid was found, read the previous record through operator[] (a
default-constructed Node when absent), overwrite the entry with the decoded
record, and trigger the guard condition exactly when old and new differ;
a failing trigger (triggerOk false) only logs.  Without a uuid nothing
happens. -/
def onPublication (st : RegMap) (topics : List (List Char)) (triggerOk : Bool) : StepResult :=
  if (decode topics).1 = [] then { state := st, triggered := false, loggedError := false }
  else
    { state := mapInsert (decode topics).1 (decode topics).2 st,
      triggered :=
        decide ((mapLookup (decode topics).1 st).getD Node.default ≠ (decode topics).2),
      loggedError :=
        decide ((mapLookup (decode topics).1 st).getD Node.default ≠ (decode topics).2)
          && !triggerOk }

/-- NodeListener::get_discovered_nodes: copy out the records in table
(key) order. -/
def get_discovered_nodes (st : RegMap) : List Node :=
  st.map Prod.snd

/-- NodeListener::count_publishers: sum over the table of the number of
publisher entries whose topic equals the given name. -/
def count_publishers (st : RegMap) (topic_name : List Char) : Nat :=
  st.foldl
    (fun count it => count + it.2.publishers.countP (fun p => p.topic == topic_name)) 0

/-- NodeListener::count_subscribers: same as count_publishers over the
subscriber lists. -/
def count_subscribers (st : RegMap) (topic_name : List Char) : Nat :=
  st.foldl
    (fun count it => count + it.2.subscribers.countP (fun p => p.topic == topic_name)) 0

/-! Helper lemmas about the substring scan. -/

theorem isPre_iff (n : List Char) : ∀ u : List Char, isPre n u = true ↔ ∃ v, u = n ++ v := by
  induction n with
  | nil => intro u; simp [isPre]
  | cons a as ih =>
    intro u
    cases u with
    | nil => simp [isPre]
    | cons b bs =>
      simp only [isPre, Bool.and_eq_true, beq_iff_eq, ih bs, List.cons_append,
        List.cons.injEq]
      constructor
      · rintro ⟨rfl, v, rfl⟩; exact ⟨v, rfl, rfl⟩
      · rintro ⟨v, rfl, rfl⟩; exact ⟨rfl, v, rfl⟩

theorem strFindAux_spec (n : List Char) : ∀ (s : List Char) (i j : Nat),
    strFindAux n s i = some j →
    i ≤ j ∧ j - i ≤ s.length ∧ isPre n (s.drop (j - i)) = true ∧
      ∀ m < j - i, isPre n (s.drop m) = false := by
  intro s
  induction s with
  | nil =>
    intro i j h
    unfold strFindAux at h
    split at h
    · rename_i hp
      cases h
      exact ⟨Nat.le_refl _, by simp, by simpa using hp, fun m hm => by omega⟩
    · cases h
  | cons c rest ih =>
    intro i j h
    unfold strFindAux at h
    split at h
    · rename_i hp
      cases h
      exact ⟨Nat.le_refl _, by simp, by simpa using hp, fun m hm => by omega⟩
    · rename_i hp
      obtain ⟨h1, h2, h3, h4⟩ := ih (i + 1) j h
      refine ⟨by omega, by simp; omega, ?_, ?_⟩
      · have he : (c :: rest).drop (j - i) = rest.drop (j - (i + 1)) := by
          have : j - i = (j - (i + 1)) + 1 := by omega
          rw [this, List.drop_succ_cons]
        rw [he]; exact h3
      · intro m hm
        cases m with
        | zero => simpa using hp
        | succ m =>
          rw [List.drop_succ_cons]
          exact h4 m (by omega)

theorem strFindAux_none (n : List Char) : ∀ (s : List Char) (i : Nat),
    strFindAux n s i = none → ∀ m, m ≤ s.length → isPre n (s.drop m) = false := by
  intro s
  induction s with
  | nil =>
    intro i h m hm
    unfold strFindAux at h
    split at h
    · cases h
    · rename_i hp
      simp only [List.drop_nil, List.length_nil] at hm ⊢
      simpa using hp
  | cons c rest ih =>
    intro i h m hm
    unfold strFindAux at h
    split at h
    · cases h
    · rename_i hp
      cases m with
      | zero => simpa using hp
      | succ m =>
        rw [List.drop_succ_cons]
        exact ih (i + 1) h m (by simpa using hm)

theorem strFind_bound (hay n : List Char) (j : Nat) (h : strFind hay n = some j) :
    j + n.length ≤ hay.length := by
  obtain ⟨_, h2, h3, _⟩ := strFindAux_spec n hay 0 j h
  obtain ⟨v, hv⟩ := (isPre_iff n _).mp h3
  have hl := congrArg List.length hv
  simp only [Nat.sub_zero] at h2 hv hl
  simp only [List.length_drop, List.length_append] at hl
  omega

theorem mem_take_exists_isPre : ∀ (t : List Char) (k : Nat), ',' ∈ t.take k →
    ∃ m, m < k ∧ isPre [','] (t.drop m) = true := by
  intro t
  induction t with
  | nil => intro k h; simp at h
  | cons c rest ih =>
    intro k h
    cases k with
    | zero => simp at h
    | succ k =>
      rw [List.take_succ_cons] at h
      rcases List.mem_cons.mp h with hc | h

      · exact ⟨0, Nat.succ_pos _, by simp [isPre, hc.symm]⟩
      · obtain ⟨m, hm, hp⟩ := ih k h
        exact ⟨m + 1, by omega, by rw [List.drop_succ_cons]; exact hp⟩

/-! Helper lemmas about the canonical comma split. -/

theorem commaSplit_of_not_mem : ∀ (s : List Char), ',' ∉ s → commaSplit s = [s] := by
  intro s
  induction s with
  | nil => intro _; rfl
  | cons c rest ih =>
    intro h
    have hc : ¬ c = ',' := fun e => h (by simp [e])
    have hr : ',' ∉ rest := fun e => h (List.mem_cons_of_mem c e)
    simp [commaSplit, hc, ih hr]

theorem commaSplit_append : ∀ (a b : List Char), ',' ∉ a →
    commaSplit (a ++ ',' :: b) = a :: commaSplit b := by
  intro a
  induction a with
  | nil => intro b _; simp [commaSplit]
  | cons c as ih =>
    intro b h
    have hc : ¬ c = ',' := fun e => h (by simp [e])
    have ha : ',' ∉ as := fun e => h (List.mem_cons_of_mem c e)
    simp [commaSplit, hc, ih b ha]

/-! The bridge: the index-based comma loop of process_topic_info computes
the canonical comma split of the suffix it starts at. -/

theorem typesLoopFuel_eq : ∀ (fuel : Nat) (s : List Char) (pos : Nat),
    pos ≤ s.length → s.length + 1 - pos ≤ fuel →
    typesLoopFuel fuel s pos = commaSplit (s.drop pos) := by
  intro fuel
  induction fuel with
  | zero => intro s pos h1 h2; omega
  | succ fuel ih =>
    intro s pos h1 h2
    cases hf : strFindFrom s [','] pos with
    | none =>
      have hnone : strFindAux [','] (s.drop pos) pos = none := by
        unfold strFindFrom at hf; rw [if_pos h1] at hf; exact hf
      have hno : ',' ∉ s.drop pos := by
        intro hmem
        obtain ⟨m, hm, hp⟩ := mem_take_exists_isPre (s.drop pos) (s.drop pos).length
          (by rw [List.take_length]; exact hmem)
        rw [strFindAux_none [','] (s.drop pos) pos hnone m (Nat.le_of_lt hm)] at hp
        cases hp
      simp [typesLoopFuel, hf, commaSplit_of_not_mem _ hno]
    | some e =>
      have hsome : strFindAux [','] (s.drop pos) pos = some e := by
        unfold strFindFrom at hf; rw [if_pos h1] at hf; exact hf
      obtain ⟨h3, h4, h5, h6⟩ := strFindAux_spec [','] (s.drop pos) pos e hsome
      obtain ⟨v, hv⟩ := (isPre_iff [','] _).mp h5
      simp only [List.cons_append, List.nil_append] at hv
      have hl := congrArg List.length hv
      simp only [List.length_drop, List.length_cons] at hl
      have helt : e < s.length := by omega
      have hnotm : ',' ∉ (s.drop pos).take (e - pos) := by
        intro hmem
        obtain ⟨m, hm, hp⟩ := mem_take_exists_isPre (s.drop pos) (e - pos) hmem
        rw [h6 m hm] at hp
        cases hp
      have hsplit : s.drop pos = (s.drop pos).take (e - pos) ++ ',' :: v := by
        conv_lhs => rw [← List.take_append_drop (e - pos) (s.drop pos)]
        rw [hv]
      have hvdrop : v = s.drop (e + 1) := by
        have ht : ((s.drop pos).drop (e - pos)).tail = (s.drop pos).drop (e - pos + 1) := by
          rw [List.tail_drop]
        rw [hv] at ht
        simp only [List.tail_cons] at ht
        rw [ht, List.drop_drop]
        congr 1
        omega
      have hcs : commaSplit (s.drop pos) = (s.drop pos).take (e - pos) :: commaSplit v := by
        conv_lhs => rw [hsplit]
        rw [commaSplit_append _ _ hnotm]
      simp only [typesLoopFuel, hf]
      rw [hcs]
      congr 1
      rw [ih s (e + 1) helt (by omega), hvdrop]

theorem typesLoop_eq_commaSplit (s : List Char) (pos : Nat) (h : pos ≤ s.length) :
    typesLoop s pos = commaSplit (s.drop pos) :=
  typesLoopFuel_eq (s.length + 1 - pos) s pos h (Nat.le_refl _)

/-! Helper lemmas about the key order and the ordered table. -/

theorem strLt_irrefl : ∀ a : List Char, strLt a a = false := by
  intro a
  induction a with
  | nil => rfl
  | cons c as ih =>
    simp only [strLt, lt_self_iff_false, if_false]
    exact ih

theorem strLt_trans : ∀ a b c : List Char,
    strLt a b = true → strLt b c = true → strLt a c = true := by
  intro a
  induction a with
  | nil =>
    intro b c hab hbc
    cases b with
    | nil => cases hab
    | cons b0 bs =>
      cases c with
      | nil => cases hbc
      | cons c0 cs => rfl
  | cons a0 as ih =>
    intro b c hab hbc
    cases b with
    | nil => cases hab
    | cons b0 bs =>
      cases c with
      | nil => cases hbc
      | cons c0 cs =>
        simp only [strLt] at hab hbc ⊢
        rcases lt_trichotomy a0 b0 with h1 | h1 | h1
        · rcases lt_trichotomy b0 c0 with h2 | h2 | h2
          · rw [if_pos (lt_trans h1 h2)]
          · subst h2; rw [if_pos h1]
          · rw [if_neg (asymm h2), if_pos h2] at hbc; cases hbc
        · subst h1
          rw [if_neg (lt_irrefl a0), if_neg (lt_irrefl a0)] at hab
          rcases lt_trichotomy a0 c0 with h2 | h2 | h2
          · rw [if_pos h2]
          · subst h2
            rw [if_neg (lt_irrefl a0), if_neg (lt_irrefl a0)] at hbc
            rw [if_neg (lt_irrefl a0), if_neg (lt_irrefl a0)]
            exact ih bs cs hab hbc
          · rw [if_neg (asymm h2), if_pos h2] at hbc; cases hbc
        · rw [if_neg (asymm h1), if_pos h1] at hab; cases hab

theorem strLt_conn : ∀ a b : List Char, strLt a b = false → a ≠ b → strLt b a = true := by
  intro a
  induction a with
  | nil =>
    intro b h hne
    cases b with
    | nil => exact absurd rfl hne
    | cons b0 bs => cases h
  | cons a0 as ih =>
    intro b h hne
    cases b with
    | nil => rfl
    | cons b0 bs =>
      simp only [strLt] at h ⊢
      rcases lt_trichotomy a0 b0 with h1 | h1 | h1
      · rw [if_pos h1] at h; cases h
      · subst h1
        rw [if_neg (lt_irrefl a0), if_neg (lt_irrefl a0)] at h ⊢
        exact ih bs h (fun e => hne (by rw [e]))
      · rw [if_pos h1]

theorem mem_mapInsert (u : List Char) (n : Node) :
    ∀ (m : RegMap) (x : List Char × Node), x ∈ mapInsert u n m → x = (u, n) ∨ x ∈ m := by
  intro m
  induction m with
  | nil => intro x hx; exact Or.inl (by simpa [mapInsert] using hx)
  | cons kv rest ih =>
    intro x hx
    simp only [mapInsert] at hx
    by_cases h1 : strLt u kv.1 = true
    · rw [if_pos h1] at hx
      rcases List.mem_cons.mp hx with rfl | hx
      · exact Or.inl rfl
      · exact Or.inr hx
    · rw [if_neg h1] at hx
      by_cases h2 : u = kv.1
      · rw [if_pos h2] at hx
        rcases List.mem_cons.mp hx with rfl | hx
        · exact Or.inl rfl
        · exact Or.inr (List.mem_cons_of_mem kv hx)
      · rw [if_neg h2] at hx
        rcases List.mem_cons.mp hx with rfl | hx
        · exact Or.inr (List.mem_cons_self _ _)
        · rcases ih x hx with h | h
          · exact Or.inl h
          · exact Or.inr (List.mem_cons_of_mem kv h)

theorem mapLookup_mapInsert_self (u : List Char) (n : Node) :
    ∀ m : RegMap, mapLookup u (mapInsert u n m) = some n := by
  intro m
  induction m with
  | nil => simp [mapInsert, mapLookup]
  | cons kv rest ih =>
    simp only [mapInsert]
    by_cases h1 : strLt u kv.1 = true
    · rw [if_pos h1]; simp [mapLookup]
    · rw [if_neg h1]
      by_cases h2 : u = kv.1
      · rw [if_pos h2]; simp [mapLookup]
      · rw [if_neg h2]
        simp only [mapLookup, if_neg h2]
        exact ih

theorem mapInsert_length_new (u : List Char) (n : Node) :
    ∀ m : RegMap, mapLookup u m = none → (mapInsert u n m).length = m.length + 1 := by
  intro m
  induction m with
  | nil => intro _; rfl
  | cons kv rest ih =>
    intro h
    simp only [mapLookup] at h
    by_cases h2 : u = kv.1
    · rw [if_pos h2] at h; cases h
    · rw [if_neg h2] at h
      simp only [mapInsert]
      by_cases h1 : strLt u kv.1 = true
      · rw [if_pos h1]; rfl
      · rw [if_neg h1, if_neg h2]
        simp [ih h]

/-- The key-order invariant of the std::map model: entries strictly
increasing in the lexicographic order of their uuid keys. -/
def SortedKeys (m : RegMap) : Prop :=
  List.Pairwise (fun p q => strLt p.1 q.1 = true) m

theorem sortedKeys_mapInsert (u : List Char) (n : Node) :
    ∀ m : RegMap, SortedKeys m → SortedKeys (mapInsert u n m) := by
  intro m
  induction m with
  | nil => intro _; simp [mapInsert, SortedKeys]
  | cons kv rest ih =>
    intro hs
    obtain ⟨hhead, htail⟩ := List.pairwise_cons.mp hs
    simp only [mapInsert]
    by_cases h1 : strLt u kv.1 = true
    · rw [if_pos h1]
      refine List.pairwise_cons.mpr ⟨?_, hs⟩
      intro x hx
      rcases List.mem_cons.mp hx with rfl | hx
      · exact h1
      · exact strLt_trans u kv.1 x.1 h1 (hhead x hx)
    · rw [if_neg h1]
      by_cases h2 : u = kv.1
      · rw [if_pos h2]
        refine List.pairwise_cons.mpr ⟨?_, htail⟩
        intro x hx
        rw [h2]
        exact hhead x hx
      · rw [if_neg h2]
        refine List.pairwise_cons.mpr ⟨?_, ih htail⟩
        intro x hx
        rcases mem_mapInsert u n rest x hx with rfl | hx
        · exact strLt_conn u kv.1 (by simpa using h1) h2
        · exact hhead x hx

theorem sortedKeys_countP_le_one (u : List Char) :
    ∀ m : RegMap, SortedKeys m → m.countP (fun p => decide (p.1 = u)) ≤ 1 := by
  intro m
  induction m with
  | nil => intro _; simp
  | cons kv rest ih =>
    intro hs
    obtain ⟨hhead, htail⟩ := List.pairwise_cons.mp hs
    rw [List.countP_cons]
    by_cases h : kv.1 = u
    · have hz : rest.countP (fun p => decide (p.1 = u)) = 0 := by
        rw [List.countP_eq_zero]
        intro p hp
        have hlt := hhead p hp
        simp only [decide_eq_true_eq]
        intro e
        rw [h, ← e, strLt_irrefl] at hlt
        cases hlt
      simp [h, hz]
    · simp [h, ih htail]

/-! Helper lemmas about decoding and the announcement step. -/

theorem classifyLoop_fst_of_no_uuid :
    ∀ (topics : List (List Char)) (uuid : List Char) (node : Node),
    (∀ t ∈ topics, strFind t uuidMarker = none) →
    (classifyLoop topics uuid node).1 = uuid := by
  intro topics
  induction topics with
  | nil => intro uuid node _; rfl
  | cons t rest ih =>
    intro uuid node h
    have ht : strFind t uuidMarker = none := h t (List.mem_cons_self t rest)
    have hrest : ∀ x ∈ rest, strFind x uuidMarker = none :=
      fun x hx => h x (List.mem_cons_of_mem t hx)
    simp only [classifyLoop, ht]
    cases strFind t namespaceMarker with
    | some pos => exact ih _ _ hrest
    | none =>
      cases strFind t nameMarker with
      | some pos => exact ih _ _ hrest
      | none =>
        cases process_topic_info t pubMarker with
        | some p => exact ih _ _ hrest
        | none =>
          cases process_topic_info t subMarker with
          | some p => exact ih _ _ hrest
          | none => exact ih _ _ hrest

theorem onPublication_no_uuid (st : RegMap) (topics : List (List Char)) (ok : Bool)
    (hu : (decode topics).1 = []) :
    onPublication st topics ok = { state := st, triggered := false, loggedError := false } := by
  unfold onPublication
  rw [if_pos hu]

theorem onPublication_eq (st : RegMap) (topics : List (List Char)) (ok : Bool)
    (u : List Char) (n : Node) (hd : decode topics = (u, n)) (hu : u ≠ []) :
    onPublication st topics ok =
      { state := mapInsert u n st,
        triggered := decide ((mapLookup u st).getD Node.default ≠ n),
        loggedError := decide ((mapLookup u st).getD Node.default ≠ n) && !ok } := by
  unfold onPublication
  rw [hd]
  exact if_neg hu

theorem node_ne_iff (a b : Node) :
    a ≠ b ↔ (a.name ≠ b.name ∨ a.namespace_ ≠ b.namespace_ ∨
      a.publishers ≠ b.publishers ∨ a.subscribers ≠ b.subscribers) := by
  cases a; cases b
  simp only [ne_eq, Node.mk.injEq, not_and]
  tauto

theorem foldl_add_eq_sum (f : (List Char × Node) → Nat) :
    ∀ (l : RegMap) (a : Nat), l.foldl (fun c it => c + f it) a = a + (l.map f).sum := by
  intro l
  induction l with
  | nil => intro a; simp
  | cons x xs ih =>
    intro a
    rw [List.foldl_cons, ih (a + f x), List.map_cons, List.sum_cons]
    omega

theorem commaSplit_joinCommas : ∀ segs : List (List Char), segs ≠ [] →
    (∀ t ∈ segs, ',' ∉ t) → commaSplit (joinCommas segs) = segs := by
  intro segs
  induction segs with
  | nil => intro h _; exact absurd rfl h
  | cons a rest ih =>
    intro _ h
    cases rest with
    | nil => exact commaSplit_of_not_mem a (h a (List.mem_cons_self a []))
    | cons b rest2 =>
      have hj : joinCommas (a :: b :: rest2) = a ++ ',' :: joinCommas (b :: rest2) := rfl
      rw [hj, commaSplit_append _ _ (h a (List.mem_cons_self a (b :: rest2)))]
      rw [ih (by simp) (fun t htm => h t (List.mem_cons_of_mem a htm))]

/-! Claim theorems. -/

/-- Claim C1, counterexample: on the publisher topic string with remainder
"chatter" and no type-list marker, process_topic_info yields the type list
["chatter"], not the empty type list the claim states — the loop variable is
not cleared when the marker is absent, so the comma loop still runs over the
remainder. -/
theorem c1_counterexample :
    process_topic_info "_pub_=chatter".data pubMarker =
      some { topic := "chatter".data, types := ["chatter".data] } ∧
    process_topic_info "_pub_=chatter".data pubMarker ≠
      some { topic := "chatter".data, types := [] } := by
  decide

/-- Claim C1 (amended): for every publisher or subscriber topic string in
which the type-list marker does not occur, decoding yields a
TopicDescriptor whose topic name is the entire remainder after the role
marker and whose type list is the comma-split of that same remainder (in
particular never empty). -/
theorem c1_no_marker_types_are_comma_split_of_remainder
    (s marker : List Char) (p0 : Nat)
    (hm : strFind s typesMarker = none) (hp : strFind s marker = some p0) :
    process_topic_info s marker =
      some { topic := s.drop (p0 + marker.length),
             types := commaSplit (s.drop (p0 + marker.length)) } := by
  have hb := strFind_bound s marker p0 hp
  simp only [process_topic_info, hp, hm]
  rw [typesLoop_eq_commaSplit s (p0 + marker.length) (by omega)]

/-- Claim C1 witness: the amended statement at the concrete counterexample
input. -/
theorem c1_witness :
    process_topic_info "_pub_=chatter".data pubMarker =
      some { topic := "_pub_=chatter".data.drop (0 + pubMarker.length),
             types := commaSplit ("_pub_=chatter".data.drop (0 + pubMarker.length)) } :=
  c1_no_marker_types_are_comma_split_of_remainder "_pub_=chatter".data pubMarker 0
    (by decide) (by decide)

/-- Claim C2: for an announcement carrying an identity, onPublication
triggers the graph guard condition exactly when the decoded record differs
from the previously stored record for that identity (the default record if
none was stored) in at least one of name, namespace, publishers,
subscribers, and does not trigger it when the two are equal. -/
theorem c2_trigger_iff_record_differs (st : RegMap) (topics : List (List Char))
    (u : List Char) (n : Node) (hd : decode topics = (u, n)) (hu : u ≠ []) :
    (onPublication st topics true).triggered = true ↔
      (((mapLookup u st).getD Node.default).name ≠ n.name ∨
       ((mapLookup u st).getD Node.default).namespace_ ≠ n.namespace_ ∨
       ((mapLookup u st).getD Node.default).publishers ≠ n.publishers ∨
       ((mapLookup u st).getD Node.default).subscribers ≠ n.subscribers) := by
  rw [onPublication_eq st topics true u n hd hu]
  simp only [decide_eq_true_eq]
  exact node_ne_iff _ n

/-- Claim C2 witness: a fresh identity with a non-empty name differs from
the default record, so the guard condition fires. -/
theorem c2_witness :
    (onPublication [] ["_did_=abc".data, "_name_=talker".data] true).triggered = true :=
  (c2_trigger_iff_record_differs [] ["_did_=abc".data, "_name_=talker".data] "abc".data
      { name := "talker".data, namespace_ := "/".data, publishers := [], subscribers := [] }
      (by decide) (by decide)).mpr (Or.inl (by decide))

/-- Claim C3: delivering the same announcement a second time never triggers
the guard condition on the second delivery — after the first delivery the
stored record equals the record decoded again from identical input. -/
theorem c3_second_delivery_never_triggers (st : RegMap) (topics : List (List Char))
    (ok1 ok2 : Bool) :
    (onPublication (onPublication st topics ok1).state topics ok2).triggered = false := by
  by_cases hu : (decode topics).1 = []
  · rw [onPublication_no_uuid st topics ok1 hu]
    rw [onPublication_no_uuid st topics ok2 hu]
  · obtain ⟨u, n, hd⟩ : ∃ u n, decode topics = (u, n) := ⟨_, _, rfl⟩
    have hne : u ≠ [] := by rw [hd] at hu; exact hu
    rw [onPublication_eq st topics ok1 u n hd hne]
    rw [onPublication_eq _ topics ok2 u n hd hne]
    simp [mapLookup_mapInsert_self]

/-- Claim C4: the trailing-comma scenario decodes to the two type entries
TypeA and the empty string; in general the comma loop of
process_topic_info computes the canonical comma split of the suffix it
starts at, and that split preserves every comma-free segment, including
empty ones, in encounter order. -/
theorem c4_comma_split_preserves_segments :
    process_topic_info "_pub_=chatter&types=TypeA,".data pubMarker =
      some { topic := "chatter".data, types := ["TypeA".data, []] } ∧
    (∀ (s : List Char) (pos : Nat), pos ≤ s.length →
      typesLoop s pos = commaSplit (s.drop pos)) ∧
    (∀ segs : List (List Char), segs ≠ [] → (∀ t ∈ segs, ',' ∉ t) →
      commaSplit (joinCommas segs) = segs) :=
  ⟨by decide, typesLoop_eq_commaSplit, commaSplit_joinCommas⟩

/-- Claim C4 witness: segment preservation at the concrete scenario list
containing a trailing empty segment. -/
theorem c4_witness :
    commaSplit (joinCommas ["TypeA".data, []]) = ["TypeA".data, []] :=
  c4_comma_split_preserves_segments.2.2 ["TypeA".data, []] (by decide) (by decide)

/-- Claim C5: an announcement in which no topic string carries the identity
marker has no effect — the table is unchanged, the guard condition does not
fire, nothing is logged, and a subsequent snapshot is unaffected. -/
theorem c5_no_identity_no_effect (st : RegMap) (topics : List (List Char)) (ok : Bool)
    (h : ∀ t ∈ topics, strFind t uuidMarker = none) :
    onPublication st topics ok = { state := st, triggered := false, loggedError := false } ∧
    get_discovered_nodes (onPublication st topics ok).state = get_discovered_nodes st := by
  have hu : (decode topics).1 = [] := classifyLoop_fst_of_no_uuid topics [] Node.default h
  refine ⟨onPublication_no_uuid st topics ok hu, ?_⟩
  rw [onPublication_no_uuid st topics ok hu]

/-- Claim C5 witness: a name-only announcement against the empty table. -/
theorem c5_witness :
    onPublication [] ["_name_=talker".data] true =
      { state := [], triggered := false, loggedError := false } :=
  (c5_no_identity_no_effect [] ["_name_=talker".data] true (by decide)).1

/-- Claim C6: count_publishers of a topic name equals the sum, across all
stored participant records, of the number of publisher entries whose topic
name equals it exactly; symmetrically for count_subscribers; and it is 0
when no participant publishes the name. -/
theorem c6_count_matching (st : RegMap) (tn : List Char) :
    count_publishers st tn =
      ((get_discovered_nodes st).map
        (fun nd => nd.publishers.countP (fun p => p.topic == tn))).sum ∧
    count_subscribers st tn =
      ((get_discovered_nodes st).map
        (fun nd => nd.subscribers.countP (fun p => p.topic == tn))).sum ∧
    ((∀ nd ∈ get_discovered_nodes st, ∀ p ∈ nd.publishers, p.topic ≠ tn) →
      count_publishers st tn = 0) := by
  have hp : count_publishers st tn =
      ((get_discovered_nodes st).map
        (fun nd => nd.publishers.countP (fun p => p.topic == tn))).sum := by
    unfold count_publishers get_discovered_nodes
    rw [foldl_add_eq_sum, List.map_map]
    simp only [Nat.zero_add]
    rfl
  have hs : count_subscribers st tn =
      ((get_discovered_nodes st).map
        (fun nd => nd.subscribers.countP (fun p => p.topic == tn))).sum := by
    unfold count_subscribers get_discovered_nodes
    rw [foldl_add_eq_sum, List.map_map]
    simp only [Nat.zero_add]
    rfl
  refine ⟨hp, hs, ?_⟩
  intro hnone
  rw [hp]
  apply List.sum_eq_zero
  intro x hx
  obtain ⟨nd, hnd, rfl⟩ := List.mem_map.mp hx
  rw [List.countP_eq_zero]
  intro p hpm
  simpa using hnone nd hnd p hpm

/-- Claim C6 witness: zero on the empty table. -/
theorem c6_witness : count_publishers [] "chatter".data = 0 :=
  (c6_count_matching [] "chatter".data).2.2 (by decide)

/-- Claim C7: starting from a table whose keys are strictly ordered, one
announcement step preserves that order, keeps at most one record per
identity, and when the announcement carries identity u stores under u
exactly the decoded record, independent of the previous contents. -/
theorem c7_full_replace_unique (st : RegMap) (topics : List (List Char)) (ok : Bool)
    (hsort : SortedKeys st) :
    SortedKeys (onPublication st topics ok).state ∧
    (∀ k : List Char,
      ((onPublication st topics ok).state).countP (fun p => decide (p.1 = k)) ≤ 1) ∧
    (∀ (u : List Char) (n : Node), decode topics = (u, n) → u ≠ [] →
      mapLookup u (onPublication st topics ok).state = some n) := by
  by_cases hu : (decode topics).1 = []
  · rw [onPublication_no_uuid st topics ok hu]
    refine ⟨hsort, fun k => sortedKeys_countP_le_one k st hsort, ?_⟩
    intro u n hd hne
    rw [hd] at hu
    exact absurd hu hne
  · obtain ⟨u, n, hd⟩ : ∃ u n, decode topics = (u, n) := ⟨_, _, rfl⟩
    have hne : u ≠ [] := by rw [hd] at hu; exact hu
    rw [onPublication_eq st topics ok u n hd hne]
    have hsi := sortedKeys_mapInsert u n st hsort
    refine ⟨hsi, fun k => sortedKeys_countP_le_one k _ hsi, ?_⟩
    intro u2 n2 hd2 _
    rw [hd, Prod.mk.injEq] at hd2
    obtain ⟨rfl, rfl⟩ := hd2
    exact mapLookup_mapInsert_self u n st

/-- Claim C7 witness: the stored record after a concrete announcement is
exactly the decoded record. -/
theorem c7_witness :
    mapLookup "u".data (onPublication [] ["_did_=u".data, "_name_=a".data] true).state =
      some { name := "a".data, namespace_ := "/".data, publishers := [], subscribers := [] } :=
  (c7_full_replace_unique [] ["_did_=u".data, "_name_=a".data] true List.Pairwise.nil).2.2
    "u".data
    { name := "a".data, namespace_ := "/".data, publishers := [], subscribers := [] }
    (by decide) (by decide)

/-- Claim C8: a failing guard-condition trigger leaves the table exactly as
a successful one does (the update stays committed, including the full
replacement under the decoded identity), and is only reported through the
error log; onPublication itself returns normally either way. -/
theorem c8_trigger_failure_nonfatal (st : RegMap) (topics : List (List Char)) :
    (onPublication st topics false).state = (onPublication st topics true).state ∧
    ((onPublication st topics false).triggered = true →
      (onPublication st topics false).loggedError = true) ∧
    (∀ (u : List Char) (n : Node), decode topics = (u, n) → u ≠ [] →
      mapLookup u (onPublication st topics false).state = some n) := by
  by_cases hu : (decode topics).1 = []
  · rw [onPublication_no_uuid st topics false hu, onPublication_no_uuid st topics true hu]
    refine ⟨rfl, ?_, ?_⟩
    · intro h
      simp at h
    · intro u n hd hne
      rw [hd] at hu
      exact absurd hu hne
  · obtain ⟨u, n, hd⟩ : ∃ u n, decode topics = (u, n) := ⟨_, _, rfl⟩
    have hne : u ≠ [] := by rw [hd] at hu; exact hu
    rw [onPublication_eq st topics false u n hd hne,
      onPublication_eq st topics true u n hd hne]
    refine ⟨rfl, ?_, ?_⟩
    · intro h
      simpa using h
    · intro u2 n2 hd2 _
      rw [hd, Prod.mk.injEq] at hd2
      obtain ⟨rfl, rfl⟩ := hd2
      exact mapLookup_mapInsert_self u n st

/-- Claim C8 witness: with a failing trigger the new record is still
committed. -/
theorem c8_witness :
    mapLookup "u".data (onPublication [] ["_did_=u".data, "_name_=a".data] false).state =
      some { name := "a".data, namespace_ := "/".data, publishers := [], subscribers := [] } :=
  (c8_trigger_failure_nonfatal [] ["_did_=u".data, "_name_=a".data]).2.2
    "u".data
    { name := "a".data, namespace_ := "/".data, publishers := [], subscribers := [] }
    (by decide) (by decide)

/-- Claim C9: an announcement whose decoded record is the default record,
carrying a previously unseen identity, inserts an entry (the snapshot grows
by one) but does not trigger the guard condition, because the map lookup
default-constructs an old record equal to the new one. -/
theorem c9_default_record_inserts_silently (st : RegMap) (topics : List (List Char))
    (u : List Char) (hd : decode topics = (u, Node.default)) (hu : u ≠ [])
    (habs : mapLookup u st = none) :
    (get_discovered_nodes (onPublication st topics true).state).length =
      (get_discovered_nodes st).length + 1 ∧
    (onPublication st topics true).triggered = false := by
  rw [onPublication_eq st topics true u Node.default hd hu]
  constructor
  · unfold get_discovered_nodes
    simp [mapInsert_length_new u Node.default st habs]
  · simp [habs]

/-- Claim C9 witness: an identity-only announcement against the empty
table. -/
theorem c9_witness :
    (get_discovered_nodes (onPublication [] ["_did_=u".data] true).state).length =
      (get_discovered_nodes ([] : RegMap)).length + 1 :=
  (c9_default_record_inserts_silently [] ["_did_=u".data] "u".data
    (by decide) (by decide) (by decide)).1

end RmwDps
